import Mathlib

/-!
Verification development for the repository-content acquisition and
token-bounded chunking pipeline (doc-as-code-sphinx).

The definitions below are shallow embeddings of the JavaScript source:

* `countTokens` — the token estimator `countTokens` of `src/backend/server.js`
  (`Math.ceil(text.length / 4)`), also the fallback branch of the
  tokenizer-based `countTokens` of the fetch-and-chunk variant.
* `countTokensWith` — the tokenizer-with-fallback estimator of the
  fetch-and-chunk variant (`src/unnamed/part_002`): a tokenizer, when
  initialized and not throwing, is used; otherwise the fallback.
* `Server.chunkSourceCode` — the line-based chunker `chunkSourceCode` of
  `src/backend/server.js` (split on newline, greedy accumulation under a
  token budget, flush of a non-empty trailing accumulator).
* `Server.callOpenAIWithRetry` — the retry/backoff wrapper
  `callOpenAIWithRetry` (identical in `server.js` and the variant), modelled
  over an oracle giving the outcome of each attempt; the outcome records how
  many attempts were made and which waits were inserted.
-/

/-- Token estimator of `src/backend/server.js` (`Math.ceil(text.length / 4)`),
which is also the fallback estimator of the variant in `src/unnamed/part_002`.
In `Nat`, `(n + 3) / 4` is exactly `⌈n / 4⌉`. -/
def countTokens (text : String) : Nat :=
  (text.length + 3) / 4

/-- Result of invoking an external tokenizer on a text: either a token count
or a thrown error (the variant catches the throw and falls back). -/
inductive TokenizerResult where
  | ok (n : Nat)
  | thrown
deriving DecidableEq

/-- The `countTokens` of `src/unnamed/part_002`: if a tokenizer was
initialized (`tok = some enc`) and does not throw, its count is returned;
if it is unavailable (`tok = none`) or throws, the fallback
`Math.ceil(text.length / 4)` is returned. -/
def countTokensWith (tok : Option (String → TokenizerResult)) (text : String) : Nat :=
  match tok with
  | some enc =>
    match enc text with
    | .ok n => n
    | .thrown => countTokens text
  | none => countTokens text

/-- Auxiliary for `splitNl`: split a character list at every newline into
the list of segments (a trailing newline yields a trailing empty segment,
and the empty list yields one empty segment). -/
def splitNlAux : List Char → List (List Char)
  | [] => [[]]
  | c :: cs =>
    match splitNlAux cs with
    | [] => []
    | h :: t => if c = '\n' then [] :: h :: t else (c :: h) :: t

/-- JavaScript `sourceCode.split('\n')`: the list of newline-separated
segments of a string, e.g. `splitNl "" = [""]` and
`splitNl "a\n\n" = ["a", "", ""]`. -/
def splitNl (s : String) : List String :=
  (splitNlAux s.data).map String.mk

namespace Server

/-- Loop of `chunkSourceCode` (`src/backend/server.js` lines 127–145):
for each line, if `countTokens(currentChunk) + countTokens(line) > maxTokens`
the accumulator is pushed (with no non-emptiness check) and the line starts
the next accumulator; otherwise the line is appended, preceded by a newline
when the accumulator is non-empty (JS truthiness of `currentChunk`). -/
def chunkLoop (maxTokens : Nat) : List String → String → List String → List String
  | [], currentChunk, chunks =>
    if currentChunk = "" then chunks else chunks ++ [currentChunk]
  | line :: rest, currentChunk, chunks =>
    if maxTokens < countTokens currentChunk + countTokens line then
      chunkLoop maxTokens rest line (chunks ++ [currentChunk])
    else
      chunkLoop maxTokens rest
        (currentChunk ++ (if currentChunk = "" then "" else "\n") ++ line) chunks

/-- `chunkSourceCode` of `src/backend/server.js`: split the source on
newlines and run the greedy accumulation loop (the source's default budget
is 10000). -/
def chunkSourceCode (sourceCode : String) (maxTokens : Nat) : List String :=
  chunkLoop maxTokens (splitNl sourceCode) "" []

/-- Outcome of one OpenAI call attempt, as discriminated by
`callOpenAIWithRetry`: success, an HTTP 429 rate-limit error, or any other
error. -/
inductive ApiResult where
  | success (resp : String)
  | rateLimited
  | otherError (msg : String)

/-- Overall outcome of `callOpenAIWithRetry`, recording how many attempts
were made: a returned response, a rethrown non-429 error, or the terminal
`Error('Max retries reached for OpenAI API call')`. -/
inductive RetryOutcome where
  | ok (resp : String) (attemptsMade : Nat)
  | raised (msg : String) (attemptsMade : Nat)
  | maxRetriesReached (attemptsMade : Nat)
deriving DecidableEq

/-- Loop of `callOpenAIWithRetry` (`src/backend/server.js` lines 148–168):
`attempt` counts calls already made, the second argument is the remaining
attempt budget.  On a 429 the loop waits `delay * 2 ^ attempt` (the waits are
collected in the returned list) and retries; any other error is rethrown at
once; after the loop the terminal max-retries error is thrown. -/
def retryGo (call : Nat → ApiResult) (delay : Nat) :
    Nat → Nat → RetryOutcome × List Nat
  | attempt, 0 => (.maxRetriesReached attempt, [])
  | attempt, remaining + 1 =>
    match call attempt with
    | .success resp => (.ok resp (attempt + 1), [])
    | .rateLimited =>
      let r := retryGo call delay (attempt + 1) remaining
      (r.1, delay * 2 ^ attempt :: r.2)
    | .otherError m => (.raised m (attempt + 1), [])

/-- `callOpenAIWithRetry(prompt, retries = 3, delay = 1000)`, modelled over an
oracle `call` giving the outcome of each attempt (attempt numbering starts
at 0, as in the source). -/
def callOpenAIWithRetry (call : Nat → ApiResult) (retries delay : Nat) :
    RetryOutcome × List Nat :=
  retryGo call delay 0 retries

end Server

/-- Helper: the estimate of two strings glued with a newline exceeds the sum
of their estimates by at most one (the rounding slack plus the uncounted
separator). -/
theorem countTokens_append_newline_le (a c : String) :
    countTokens (a ++ "\n" ++ c) ≤ countTokens a + countTokens c + 1 := by
  simp only [countTokens, String.length_append]
  have h : ("\n" : String).length = 1 := rfl
  rw [h]
  omega

/-- Helper: the estimate is monotone with respect to appending on the right
by a fixed string, in the sense used below. -/
theorem countTokens_append_le (a c : String) :
    countTokens (a ++ c) ≤ countTokens a + countTokens c := by
  simp only [countTokens, String.length_append]
  omega

/-- C9: the fallback estimator returns exactly `⌈length / 4⌉` (characterized
by `length ≤ 4·estimate < length + 4`, hence a non-negative integer) for
every input string, and the tokenizer-based `countTokens` of the variant
returns the fallback value whenever the tokenizer is unavailable (`none`) or
throws.  The estimator is a total Lean function, so it never raises. -/
theorem countTokens_fallback_spec :
    (∀ s : String, s.length ≤ 4 * countTokens s ∧ 4 * countTokens s < s.length + 4)
    ∧ (∀ s : String, countTokensWith none s = countTokens s)
    ∧ (∀ (enc : String → TokenizerResult) (s : String),
        enc s = .thrown → countTokensWith (some enc) s = countTokens s) := by
  refine ⟨fun s => ?_, fun s => rfl, fun enc s h => ?_⟩
  · simp only [countTokens]
    omega
  · simp [countTokensWith, h]

/-- Witness for C9: the tokenizer-throws hypothesis discharged at a concrete
tokenizer and input. -/
theorem countTokens_fallback_spec_witness :
    countTokensWith (some fun _ => .thrown) "abcde" = countTokens "abcde" :=
  countTokens_fallback_spec.2.2 (fun _ => .thrown) "abcde" rfl

/-- C10: chunking the empty source returns the empty list of chunks (not a
list holding one empty chunk), for every budget: the single empty line is
appended to the empty accumulator, which stays empty and is not flushed. -/
theorem chunkSourceCode_empty (maxTokens : Nat) :
    Server.chunkSourceCode "" maxTokens = [] := by
  have hsplit : splitNl "" = [""] := rfl
  have h0 : countTokens "" = 0 := rfl
  simp [Server.chunkSourceCode, hsplit, Server.chunkLoop, h0]

/-- Helper: unrolling `retryGo` when every attempt is rate-limited: starting
after `attempt` calls with `remaining` budget left, the loop makes exactly
`remaining` further calls, inserts the exponential waits, and ends in the
terminal max-retries outcome. -/
theorem retryGo_all_rateLimited (call : Nat → Server.ApiResult) (delay : Nat)
    (h : ∀ i, call i = .rateLimited) :
    ∀ remaining attempt, Server.retryGo call delay attempt remaining
      = (.maxRetriesReached (attempt + remaining),
         (List.range' attempt remaining).map fun i => delay * 2 ^ i) := by
  intro remaining
  induction remaining with
  | zero => intro attempt; simp [Server.retryGo]
  | succ n ih =>
    intro attempt
    rw [Server.retryGo, h attempt]
    simp only [ih (attempt + 1), List.range'_succ, List.map_cons]
    have ha : attempt + 1 + n = attempt + (n + 1) := by omega
    rw [ha]

/-- C5: if every attempt hits the rate limit, `callOpenAIWithRetry` makes
exactly `retries` attempts (never more — the outcome records the number of
calls made), waits `delay * 2 ^ i` after the `i`-th attempt, and then fails
with the terminal max-retries error, a constructor distinct from the outcome
`raised` of a single failed (non-429) call. -/
theorem callOpenAIWithRetry_exhaustion (call : Nat → Server.ApiResult)
    (retries delay : Nat) (h : ∀ i, call i = .rateLimited) :
    Server.callOpenAIWithRetry call retries delay
      = (.maxRetriesReached retries, (List.range retries).map fun i => delay * 2 ^ i)
    ∧ ∀ m n, (Server.RetryOutcome.maxRetriesReached retries) ≠ .raised m n := by
  constructor
  · rw [Server.callOpenAIWithRetry, retryGo_all_rateLimited call delay h retries 0]
    rw [List.range_eq_range']
    simp
  · intro m n hc
    exact Server.RetryOutcome.noConfusion hc

/-- Witness for C5: a concrete always-rate-limited oracle with the default
budget 3 and base delay 1000 makes exactly 3 attempts, waiting 1000, 2000,
4000 ms, then fails terminally. -/
theorem callOpenAIWithRetry_exhaustion_witness :
    Server.callOpenAIWithRetry (fun _ => .rateLimited) 3 1000
      = (.maxRetriesReached 3, (List.range 3).map fun i => 1000 * 2 ^ i) :=
  (callOpenAIWithRetry_exhaustion (fun _ => .rateLimited) 3 1000 fun _ => rfl).1

/-- Helper: a string of length zero is the empty string. -/
theorem str_eq_empty_of_length {s : String} (h : s.length = 0) : s = "" := by
  cases s with
  | mk d =>
    cases d with
    | nil => rfl
    | cons c cs => rw [String.length_mk] at h; simp at h

/-- Helper: a concatenation is empty only if both parts are. -/
theorem str_append_eq_empty {a b : String} (h : a ++ b = "") : a = "" ∧ b = "" := by
  have hl := congrArg String.length h
  rw [String.length_append, String.length_empty] at hl
  exact ⟨str_eq_empty_of_length (by omega), str_eq_empty_of_length (by omega)⟩

/-- Helper invariant for the line-based chunker: if the accumulator can only
be empty when the chunk list does not end in an empty chunk, then the final
chunk list never ends in an empty chunk (the mid-loop push of an empty
accumulator is always followed by a non-empty accumulator, and the trailing
flush is guarded by non-emptiness). -/
theorem chunkLoop_getLast_ne_empty (b : Nat) :
    ∀ (ls : List String) (cc : String) (chunks : List String),
      (cc = "" → chunks.getLast? ≠ some "") →
      (Server.chunkLoop b ls cc chunks).getLast? ≠ some "" := by
  intro ls
  induction ls with
  | nil =>
    intro cc chunks hinv
    rw [Server.chunkLoop]
    by_cases hcc : cc = ""
    · rw [if_pos hcc]; exact hinv hcc
    · rw [if_neg hcc]; simp [List.getLast?_concat, hcc]
  | cons line rest ih =>
    intro cc chunks hinv
    rw [Server.chunkLoop]
    by_cases hguard : b < countTokens cc + countTokens line
    · rw [if_pos hguard]
      apply ih
      intro hline
      subst hline
      have h0 : countTokens "" = 0 := rfl
      have hcc : cc ≠ "" := by
        intro h
        rw [h, h0] at hguard
        omega
      simp [List.getLast?_concat, hcc]
    · rw [if_neg hguard]
      apply ih
      intro hcc'
      have h1 := str_append_eq_empty hcc'
      have h2 := str_append_eq_empty h1.1
      exact hinv h2.1

/-- C3 (amended): the chunk list produced by `chunkSourceCode` never ends in
an empty chunk — the trailing accumulator is flushed only when non-empty.
(The original claim that no chunk at all is empty is refuted by
`chunkSourceCode_empty_chunk_counterexample`.) -/
theorem chunkSourceCode_last_chunk_ne_empty (text : String) (b : Nat) :
    (Server.chunkSourceCode text b).getLast? ≠ some "" :=
  chunkLoop_getLast_ne_empty b (splitNl text) "" [] (fun _ => by simp)

/-- Counterexample to C3 as stated: when the very first line alone exceeds
the budget, the empty accumulator is pushed with no non-emptiness check, so
the chunker emits an empty chunk (`"xxxxxxxxx"` estimates to 3 > 1 tokens). -/
theorem chunkSourceCode_empty_chunk_counterexample :
    Server.chunkSourceCode "xxxxxxxxx" 1 = ["", "xxxxxxxxx"]
    ∧ "" ∈ Server.chunkSourceCode "xxxxxxxxx" 1 := by
  constructor
  · decide
  · decide

/-- Counterexample to C4 as stated: with budget 2, the two lines `"xxxx"` and
`"yyyy"` each estimate to 1 token, the guard `1 + 1 > 2` fails, so they are
merged; the resulting single chunk `"xxxx\nyyyy"` (two lines, neither of
which alone exceeds the budget) estimates to 3 > 2 tokens, because the guard
compares the sum of the separate estimates and ignores the inserted
newline. -/
theorem chunkSourceCode_budget_counterexample :
    Server.chunkSourceCode "xxxx\nyyyy" 2 = ["xxxx\nyyyy"]
    ∧ countTokens "xxxx\nyyyy" = 3
    ∧ 2 < countTokens "xxxx\nyyyy"
    ∧ countTokens "xxxx" ≤ 2
    ∧ countTokens "yyyy" ≤ 2
    ∧ splitNl "xxxx\nyyyy" = ["xxxx", "yyyy"] := by
  refine ⟨by decide, by decide, by decide, by decide, by decide, by decide⟩

/-- Counterexample to C2 as stated: with budget 1 the single file `a` (header
line plus body lines `xx`, `yy`) is distributed over four chunks — the
line-based `chunkSourceCode` splits mid-file.  Every produced chunk is
strictly shorter than the file's formatted text, so no single chunk contains
that formatted text. -/
theorem chunkSourceCode_splits_mid_file_counterexample :
    Server.chunkSourceCode "\n=== File: a ===\nxx\nyy" 1
      = ["", "=== File: a ===", "xx", "yy"]
    ∧ ("" : String).length < ("\n=== File: a ===\nxx\nyy" : String).length
    ∧ ("=== File: a ===" : String).length < ("\n=== File: a ===\nxx\nyy" : String).length
    ∧ ("xx" : String).length < ("\n=== File: a ===\nxx\nyy" : String).length
    ∧ ("yy" : String).length < ("\n=== File: a ===\nxx\nyy" : String).length := by
  refine ⟨by decide, by decide, by decide, by decide, by decide⟩

/-- Counterexample to C1 as stated: chunking the corpus of the single file
`a` with body `"xxxxxxxx\n\n\n\nyy"` under budget 2, then reassembling the
chunks (re-inserting the newline separators the split removed), yields the
header followed by `"xxxxxxxx\n\nyy"` — two newline bytes of the file body
are lost, because an empty line consumed while the accumulator is empty is
dropped.  Stripping the path header cannot recover them: the recovered body
differs from the original body. -/
theorem chunkSourceCode_round_trip_counterexample :
    Server.chunkSourceCode ("\n=== File: a ===\n" ++ "xxxxxxxx\n\n\n\nyy") 2
      = ["", "=== File: a ===", "xxxxxxxx\n", "yy"]
    ∧ String.intercalate "\n"
        (Server.chunkSourceCode ("\n=== File: a ===\n" ++ "xxxxxxxx\n\n\n\nyy") 2)
      = "\n=== File: a ===\n" ++ "xxxxxxxx\n\nyy"
    ∧ ("xxxxxxxx\n\nyy" : String) ≠ "xxxxxxxx\n\n\n\nyy"
    ∧ ("xxxxxxxx\n\nyy" : String).length + 2 = ("xxxxxxxx\n\n\n\nyy" : String).length := by
  refine ⟨by decide, by decide, by decide, by decide⟩

/-- Helper invariant for the line-based chunker: with `S` a superset of the
lines still to be consumed, every chunk the loop ever emits either estimates
within `b + 1` tokens or is one of the input lines verbatim. -/
theorem chunkLoop_member_bound (b : Nat) (S : List String) :
    ∀ (ls : List String) (cc : String) (chunks : List String),
      (∀ l ∈ ls, l ∈ S) →
      (∀ x ∈ chunks, countTokens x ≤ b + 1 ∨ x ∈ S) →
      (countTokens cc ≤ b + 1 ∨ cc ∈ S) →
      ∀ x ∈ Server.chunkLoop b ls cc chunks, countTokens x ≤ b + 1 ∨ x ∈ S := by
  intro ls
  induction ls with
  | nil =>
    intro cc chunks _ hchunks hcc x hx
    rw [Server.chunkLoop] at hx
    by_cases h : cc = ""
    · rw [if_pos h] at hx; exact hchunks x hx
    · rw [if_neg h] at hx
      rcases List.mem_append.1 hx with h1 | h2
      · exact hchunks x h1
      · rw [List.mem_singleton] at h2; subst h2; exact hcc
  | cons line rest ih =>
    intro cc chunks hls hchunks hcc x hx
    rw [Server.chunkLoop] at hx
    by_cases hguard : b < countTokens cc + countTokens line
    · rw [if_pos hguard] at hx
      refine ih line (chunks ++ [cc]) ?_ ?_ ?_ x hx
      · exact fun l hl => hls l (List.mem_cons_of_mem _ hl)
      · intro y hy
        rcases List.mem_append.1 hy with h1 | h2
        · exact hchunks y h1
        · rw [List.mem_singleton] at h2; subst h2; exact hcc
      · exact Or.inr (hls line (List.mem_cons_self _ _))
    · rw [if_neg hguard] at hx
      refine ih _ chunks (fun l hl => hls l (List.mem_cons_of_mem _ hl)) hchunks ?_ x hx
      by_cases hcc0 : cc = ""
      · subst hcc0
        have hline : ("" : String) ++ (if ("" : String) = "" then "" else "\n") ++ line
            = line := by simp
        rw [hline]
        exact Or.inr (hls line (List.mem_cons_self _ _))
      · rw [if_neg hcc0]
        left
        have h1 := countTokens_append_newline_le cc line
        omega

/-- JavaScript `path.endsWith(ext)`: `ext` is a suffix of `path`. -/
def endsWithStr (path ext : String) : Bool :=
  ext.data.isSuffixOf path.data

/-- `extensions.some(ext => item.path.endsWith(ext))`: the extension filter
applied to an entry path (default extensions `.js, .py, .ts, .md`). -/
def matchesExt (exts : List String) (path : String) : Bool :=
  exts.any fun ext => endsWithStr path ext

/-- The path header both fetchers prepend to a file body:
`` `\n=== File: ${item.path} ===\n${fileContent}` ``. -/
def formatFile (path content : String) : String :=
  "\n=== File: " ++ path ++ " ===\n" ++ content

/-- One entry of a remote directory listing (GitHub contents API): a file
with its path, optional raw-download location and (once fetched) its text, or
a directory with its own listing.  Remote pagination is modelled by the
listing being the concatenation of all pages. -/
inductive Entry where
  | file (path : String) (downloadUrl : Option String) (content : String)
  | dir (path : String) (entries : List Entry)

/-- Concatenation of a list of strings (no separator), used to state the
round-trip properties. -/
def joinAll : List String → String
  | [] => ""
  | s :: rest => s ++ joinAll rest

/-- The file occurs (at any nesting depth) in the given listing. -/
inductive FileOccurs (p : String) (u : Option String) (c : String) : List Entry → Prop where
  | head (rest : List Entry) : FileOccurs p u c (.file p u c :: rest)
  | tail (e : Entry) (rest : List Entry) :
      FileOccurs p u c rest → FileOccurs p u c (e :: rest)
  | inDir (d : String) (es rest : List Entry) :
      FileOccurs p u c es → FileOccurs p u c (.dir d es :: rest)

namespace Variant

/-- The FileRecords the fetch retains, in depth-first walk order: files (with
a download location) whose path matches the extension filter and whose
content is within the 500000-character ceiling; directories contribute their
own walk in place. -/
def collectFiles (exts : List String) : List Entry → List (String × String)
  | [] => []
  | .file p u c :: rest =>
    if u.isSome && matchesExt exts p then
      if 500000 < c.length then collectFiles exts rest
      else (p, c) :: collectFiles exts rest
    else collectFiles exts rest
  | .dir _ es :: rest => collectFiles exts es ++ collectFiles exts rest
termination_by es => sizeOf es

/-- The formatted blocks (path header plus body) of the retained
FileRecords, in walk order — the "filtered corpus" of the spec. -/
def blocksOf (exts : List String) (entries : List Entry) : List String :=
  (collectFiles exts entries).map fun r => formatFile r.1 r.2

/-- The paths of the oversized files the walk skips with a logged warning
(`Skipping large file`), in walk order. -/
def fetchWarnings (exts : List String) : List Entry → List String
  | [] => []
  | .file p u c :: rest =>
    if u.isSome && matchesExt exts p then
      if 500000 < c.length then p :: fetchWarnings exts rest
      else fetchWarnings exts rest
    else fetchWarnings exts rest
  | .dir _ es :: rest => fetchWarnings exts es ++ fetchWarnings exts rest
termination_by es => sizeOf es

/-- The inner loop of `fetchAllRepoContents` (`src/unnamed/part_002`) over
the chunks returned by a recursive call on a subdirectory: each subdirectory
chunk is packed into the running accumulator under the same budget guard
`countTokens(currentChunk + dirChunk) > budget` as a file block. -/
def packGo (est : String → Nat) (budget : Nat) :
    List String → List String → String → List String × String
  | [], chunks, currentChunk => (chunks, currentChunk)
  | dch :: rest, chunks, currentChunk =>
    if budget < est (currentChunk ++ dch) then
      packGo est budget rest (chunks ++ [currentChunk]) dch
    else
      packGo est budget rest chunks (currentChunk ++ dch)

mutual

/-- The body of `fetchAllRepoContents` of `src/unnamed/part_002` (lines
42–77): walk the listing; a matching, in-ceiling file contributes its
formatted block to the accumulator (closing the current chunk first when
`countTokens(currentChunk + fileText) > budget`); an oversized file is
skipped; a directory contributes the chunks of its own recursive fetch,
packed by `packGo`.  The estimator `est` stands for the ambient
`countTokens` and `budget` for the hard-coded 25000 of the source. -/
def fetchGo (est : String → Nat) (exts : List String) (budget : Nat) :
    List Entry → List String → String → List String × String
  | [], chunks, currentChunk => (chunks, currentChunk)
  | .file p u c :: rest, chunks, currentChunk =>
    if u.isSome && matchesExt exts p then
      if 500000 < c.length then
        fetchGo est exts budget rest chunks currentChunk
      else
        if budget < est (currentChunk ++ formatFile p c) then
          fetchGo est exts budget rest (chunks ++ [currentChunk]) (formatFile p c)
        else
          fetchGo est exts budget rest chunks (currentChunk ++ formatFile p c)
    else
      fetchGo est exts budget rest chunks currentChunk
  | .dir _ es :: rest, chunks, currentChunk =>
    let st := packGo est budget (fetchAllRepoContents est exts budget es) chunks currentChunk
    fetchGo est exts budget rest st.1 st.2

/-- `fetchAllRepoContents` of `src/unnamed/part_002`: run the walk with an
empty accumulator and flush a non-empty trailing accumulator
(`if (currentChunk) chunks.push(currentChunk)`). -/
def fetchAllRepoContents (est : String → Nat) (exts : List String) (budget : Nat)
    (entries : List Entry) : List String :=
  let st := fetchGo est exts budget entries [] ""
  if st.2 = "" then st.1 else st.1 ++ [st.2]

end

end Variant

namespace Server

/-- The file loop of the worker `fetchDirContents` (`src/backend/server.js`
lines 30–57): matching, in-ceiling files listed directly in the directory
contribute their formatted text; an entry of type `dir` is NOT descended
into (the worker has no recursive case).  Pagination is modelled by the
listing being the concatenation of all pages, traversed in order. -/
def fetchDirItems (exts : List String) : List Entry → List String
  | [] => []
  | .file p u c :: rest =>
    if u.isSome && matchesExt exts p then
      if 500000 < c.length then fetchDirItems exts rest
      else formatFile p c :: fetchDirItems exts rest
    else fetchDirItems exts rest
  | .dir _ _ :: rest => fetchDirItems exts rest

/-- The worker's posted message: `contents.join('\n')`. -/
def fetchDirContents (exts : List String) (entries : List Entry) : String :=
  String.intercalate "\n" (fetchDirItems exts entries)

/-- A worker's single completion message, as discriminated by the
coordinator's `message` handler: a content string (written to the sink) or
an error payload (logged, nothing written). -/
inductive WorkerMsg where
  | content (s : String)
  | errorMsg (m : String)

/-- What the coordinator writes to the sink for one worker message. -/
def workerContribution : WorkerMsg → String
  | .content s => s
  | .errorMsg _ => ""

/-- What the coordinator logs for one worker message. -/
def workerError : WorkerMsg → Option String
  | .content _ => none
  | .errorMsg m => some m

/-- The root-level direct fetch of the coordinator (`src/backend/server.js`
lines 75–85): matching, in-ceiling root files are written to the sink in
listing order before any worker output; oversized root files are skipped
with a warning. -/
def rootFilesText (exts : List String) : List Entry → String
  | [] => ""
  | .file p u c :: rest =>
    if u.isSome && matchesExt exts p then
      if 500000 < c.length then rootFilesText exts rest
      else formatFile p c ++ rootFilesText exts rest
    else rootFilesText exts rest
  | .dir _ _ :: rest => rootFilesText exts rest

/-- The root-level subdirectories (`rootItems.filter(item => item.type ===
'dir')`), one worker each. -/
def rootDirs : List Entry → List String
  | [] => []
  | .file _ _ _ :: rest => rootDirs rest
  | .dir p _ :: rest => p :: rootDirs rest

/-- Result of a completed coordinator run: the sink contents and the logged
worker errors. -/
structure FetchRunResult where
  sink : String
  workerErrors : List String
deriving DecidableEq

/-- The coordinator `fetchAllRepoContents` of `src/backend/server.js` (lines
64–124): if the root listing call fails the whole fetch fails; otherwise the
sink receives the root-level direct fetch followed by each worker's
contribution in completion order (`completionOrder`, a permutation of the
worker indices — worker `i` walks the `i`-th root subdirectory), a worker
error message being logged instead of written.  Every worker is awaited
(`Promise.all`), so the run completes once all workers have completed. -/
def fetchAllRepoContents (exts : List String)
    (rootListing : Except String (List Entry))
    (outcome : Nat → WorkerMsg)
    (completionOrder : List Nat) : Except String FetchRunResult :=
  match rootListing with
  | .error e => .error e
  | .ok items =>
    .ok { sink := rootFilesText exts items
            ++ joinAll (completionOrder.map fun i => workerContribution (outcome i))
        , workerErrors := completionOrder.filterMap fun i => workerError (outcome i) }

end Server

/-- Helper: concatenation distributes over list append. -/
theorem joinAll_append (a b : List String) :
    joinAll (a ++ b) = joinAll a ++ joinAll b := by
  induction a with
  | nil => simp [joinAll]
  | cons s rest ih => simp [joinAll, ih, String.append_assoc]

/-- Helper: concatenating a list of concatenations is concatenating the
flattened list. -/
theorem joinAll_map_joinAll (gs : List (List String)) :
    joinAll (gs.map joinAll) = joinAll gs.flatten := by
  induction gs with
  | nil => rfl
  | cons g rest ih => simp [joinAll, ih, joinAll_append]

/-- Helper: a list of non-empty strings with empty concatenation is empty. -/
theorem eq_nil_of_joinAll_eq_empty {l : List String}
    (hne : ∀ x ∈ l, x ≠ "") (h : joinAll l = "") : l = [] := by
  cases l with
  | nil => rfl
  | cons s rest =>
    exact absurd (str_append_eq_empty h).1 (hne s (List.mem_cons_self _ _))

/-- Helper: a formatted block is never the empty string (it starts with its
path header). -/
theorem formatFile_ne_empty (p c : String) : formatFile p c ≠ "" := by
  intro h
  have h1 := (str_append_eq_empty h).1
  have h2 := (str_append_eq_empty h1).1
  have h3 := congrArg String.length h2
  rw [String.length_append, String.length_empty] at h3
  have h4 : ("\n=== File: " : String).length = 11 := by decide
  omega

/-- Helper: every block of the filtered corpus is non-empty. -/
theorem blocksOf_ne_empty (exts : List String) (entries : List Entry) :
    ∀ x ∈ Variant.blocksOf exts entries, x ≠ "" := by
  intro x hx
  rw [Variant.blocksOf, List.mem_map] at hx
  obtain ⟨r, _, hr⟩ := hx
  rw [← hr]
  exact formatFile_ne_empty r.1 r.2

/-- Helper: concatenation of a one-element list. -/
theorem joinAll_singleton (s : String) : joinAll [s] = s := by
  simp [joinAll]

/-- Helper equation: blocks of an empty listing. -/
theorem blocksOf_nil (exts : List String) : Variant.blocksOf exts [] = [] := by
  simp [Variant.blocksOf, Variant.collectFiles]

/-- Helper equation: blocks of a listing headed by a retained file. -/
theorem blocksOf_file_kept (exts : List String) (p : String) (u : Option String)
    (c : String) (rest : List Entry)
    (hcond : (u.isSome && matchesExt exts p) = true) (hbig : ¬ 500000 < c.length) :
    Variant.blocksOf exts (.file p u c :: rest)
      = formatFile p c :: Variant.blocksOf exts rest := by
  simp only [Variant.blocksOf, Variant.collectFiles]
  rw [if_pos hcond, if_neg hbig, List.map_cons]

/-- Helper equation: blocks of a listing headed by an oversized file. -/
theorem blocksOf_file_big (exts : List String) (p : String) (u : Option String)
    (c : String) (rest : List Entry)
    (hbig : 500000 < c.length) :
    Variant.blocksOf exts (.file p u c :: rest) = Variant.blocksOf exts rest := by
  simp only [Variant.blocksOf, Variant.collectFiles]
  by_cases hcond : (u.isSome && matchesExt exts p) = true
  · rw [if_pos hcond, if_pos hbig]
  · rw [if_neg hcond]

/-- Helper equation: blocks of a listing headed by a filtered-out file. -/
theorem blocksOf_file_not (exts : List String) (p : String) (u : Option String)
    (c : String) (rest : List Entry)
    (hcond : ¬ (u.isSome && matchesExt exts p) = true) :
    Variant.blocksOf exts (.file p u c :: rest) = Variant.blocksOf exts rest := by
  simp only [Variant.blocksOf, Variant.collectFiles]
  rw [if_neg hcond]

/-- Helper equation: blocks of a listing headed by a directory. -/
theorem blocksOf_dir (exts : List String) (d : String) (es rest : List Entry) :
    Variant.blocksOf exts (.dir d es :: rest)
      = Variant.blocksOf exts es ++ Variant.blocksOf exts rest := by
  simp only [Variant.blocksOf, Variant.collectFiles]
  rw [List.map_append]

/-- Helper (packing lemma for `packGo`): packing a list of chunks, each the
concatenation of a group of blocks, emits chunks that are concatenations of
consecutive groups, the final accumulator carrying the remaining suffix. -/
theorem packGo_pack (est : String → Nat) (b : Nat) :
    ∀ (dgs : List (List String)) (chunks : List String) (cur : List String),
      ∃ (gs : List (List String)) (cur2 : List String),
        Variant.packGo est b (dgs.map joinAll) chunks (joinAll cur)
          = (chunks ++ gs.map joinAll, joinAll cur2)
        ∧ gs.flatten ++ cur2 = cur ++ dgs.flatten := by
  intro dgs
  induction dgs with
  | nil =>
    intro chunks cur
    refine ⟨[], cur, ?_, ?_⟩
    · simp [Variant.packGo]
    · simp
  | cons dg rest ih =>
    intro chunks cur
    rw [List.map_cons]
    by_cases hguard : b < est (joinAll cur ++ joinAll dg)
    · obtain ⟨gs, cur2, heq, hflat⟩ := ih (chunks ++ [joinAll cur]) dg
      refine ⟨cur :: gs, cur2, ?_, ?_⟩
      · rw [Variant.packGo, if_pos hguard, heq]
        simp
      · simp only [List.flatten_cons, List.append_assoc, hflat]
    · obtain ⟨gs, cur2, heq, hflat⟩ := ih chunks (cur ++ dg)
      refine ⟨gs, cur2, ?_, ?_⟩
      · rw [Variant.packGo, if_neg hguard, ← joinAll_append, heq]
      · rw [hflat]
        simp

/-- Helper equation for `fetchGo`: empty listing. -/
theorem fetchGo_nil (est : String → Nat) (exts : List String) (b : Nat)
    (chunks : List String) (cc : String) :
    Variant.fetchGo est exts b [] chunks cc = (chunks, cc) := by
  simp only [Variant.fetchGo]

/-- Helper equation for `fetchGo`: a file failing the type/url/extension
check is skipped. -/
theorem fetchGo_file_not (est : String → Nat) (exts : List String) (b : Nat)
    (p : String) (u : Option String) (c : String) (rest : List Entry)
    (chunks : List String) (cc : String)
    (hcond : ¬ (u.isSome && matchesExt exts p) = true) :
    Variant.fetchGo est exts b (.file p u c :: rest) chunks cc
      = Variant.fetchGo est exts b rest chunks cc := by
  simp only [Variant.fetchGo]
  rw [if_neg hcond]

/-- Helper equation for `fetchGo`: an oversized file is skipped. -/
theorem fetchGo_file_big (est : String → Nat) (exts : List String) (b : Nat)
    (p : String) (u : Option String) (c : String) (rest : List Entry)
    (chunks : List String) (cc : String)
    (hbig : 500000 < c.length) :
    Variant.fetchGo est exts b (.file p u c :: rest) chunks cc
      = Variant.fetchGo est exts b rest chunks cc := by
  simp only [Variant.fetchGo]
  by_cases hcond : (u.isSome && matchesExt exts p) = true
  · rw [if_pos hcond, if_pos hbig]
  · rw [if_neg hcond]

/-- Helper equation for `fetchGo`: a retained block that overflows the budget
closes the current chunk. -/
theorem fetchGo_file_push (est : String → Nat) (exts : List String) (b : Nat)
    (p : String) (u : Option String) (c : String) (rest : List Entry)
    (chunks : List String) (cc : String)
    (hcond : (u.isSome && matchesExt exts p) = true) (hbig : ¬ 500000 < c.length)
    (hguard : b < est (cc ++ formatFile p c)) :
    Variant.fetchGo est exts b (.file p u c :: rest) chunks cc
      = Variant.fetchGo est exts b rest (chunks ++ [cc]) (formatFile p c) := by
  simp only [Variant.fetchGo]
  rw [if_pos hcond, if_neg hbig, if_pos hguard]

/-- Helper equation for `fetchGo`: a retained block within the budget is
appended to the current chunk. -/
theorem fetchGo_file_app (est : String → Nat) (exts : List String) (b : Nat)
    (p : String) (u : Option String) (c : String) (rest : List Entry)
    (chunks : List String) (cc : String)
    (hcond : (u.isSome && matchesExt exts p) = true) (hbig : ¬ 500000 < c.length)
    (hguard : ¬ b < est (cc ++ formatFile p c)) :
    Variant.fetchGo est exts b (.file p u c :: rest) chunks cc
      = Variant.fetchGo est exts b rest chunks (cc ++ formatFile p c) := by
  simp only [Variant.fetchGo]
  rw [if_pos hcond, if_neg hbig, if_neg hguard]

/-- Helper equation for `fetchGo`: a directory contributes the chunks of its
recursive fetch, packed into the running state. -/
theorem fetchGo_dir (est : String → Nat) (exts : List String) (b : Nat)
    (d : String) (es rest : List Entry) (chunks : List String) (cc : String) :
    Variant.fetchGo est exts b (.dir d es :: rest) chunks cc
      = Variant.fetchGo est exts b rest
          (Variant.packGo est b (Variant.fetchAllRepoContents est exts b es) chunks cc).1
          (Variant.packGo est b (Variant.fetchAllRepoContents est exts b es) chunks cc).2 := by
  simp only [Variant.fetchGo]

/-- Helper equation for `fetchAllRepoContents`: the walk followed by the
flush of a non-empty trailing accumulator. -/
theorem fetchAll_eq (est : String → Nat) (exts : List String) (b : Nat)
    (entries : List Entry) :
    Variant.fetchAllRepoContents est exts b entries
      = if (Variant.fetchGo est exts b entries [] "").2 = ""
        then (Variant.fetchGo est exts b entries [] "").1
        else (Variant.fetchGo est exts b entries [] "").1
          ++ [(Variant.fetchGo est exts b entries [] "").2] := by
  simp only [Variant.fetchAllRepoContents]

/-- Master packing lemma for the fetch-and-chunk walk: the emitted chunks
are concatenations of consecutive groups of formatted blocks of the filtered
corpus (in walk order), the accumulator always carrying the remaining
suffix; and the full fetch decomposes the block sequence into chunk groups.
No block is dropped, duplicated, split or reordered. -/
theorem fetchGo_pack (est : String → Nat) (exts : List String) (b : Nat) :
    ∀ (n : Nat) (entries : List Entry), sizeOf entries ≤ n →
      (∀ (chunks : List String) (cur : List String),
        ∃ (gs : List (List String)) (cur2 : List String),
          Variant.fetchGo est exts b entries chunks (joinAll cur)
            = (chunks ++ gs.map joinAll, joinAll cur2)
          ∧ gs.flatten ++ cur2 = cur ++ Variant.blocksOf exts entries)
      ∧ (∃ dgs : List (List String),
          Variant.fetchAllRepoContents est exts b entries = dgs.map joinAll
          ∧ dgs.flatten = Variant.blocksOf exts entries) := by
  intro n
  induction n with
  | zero =>
    intro entries h
    exfalso
    have hpos : 0 < sizeOf entries := by cases entries <;> simp_arith
    omega
  | succ n ih =>
    intro entries hsize
    have hgo : ∀ (chunks : List String) (cur : List String),
        ∃ (gs : List (List String)) (cur2 : List String),
          Variant.fetchGo est exts b entries chunks (joinAll cur)
            = (chunks ++ gs.map joinAll, joinAll cur2)
          ∧ gs.flatten ++ cur2 = cur ++ Variant.blocksOf exts entries := by
      cases entries with
      | nil =>
        intro chunks cur
        refine ⟨[], cur, ?_, ?_⟩
        · simp [fetchGo_nil]
        · simp [blocksOf_nil]
      | cons e rest =>
        cases e with
        | file p u c =>
          have hrest : sizeOf rest ≤ n := by
            simp only [List.cons.sizeOf_spec] at hsize
            omega
          obtain ⟨IHgo, _⟩ := ih rest hrest
          intro chunks cur
          by_cases hcond : (u.isSome && matchesExt exts p) = true
          · by_cases hbig : 500000 < c.length
            · obtain ⟨gs, cur2, heq, hflat⟩ := IHgo chunks cur
              refine ⟨gs, cur2, ?_, ?_⟩
              · rw [fetchGo_file_big est exts b p u c rest chunks _ hbig]
                exact heq
              · rw [hflat, blocksOf_file_big exts p u c rest hbig]
            · by_cases hguard : b < est (joinAll cur ++ formatFile p c)
              · obtain ⟨gs, cur2, heq, hflat⟩ := IHgo (chunks ++ [joinAll cur]) [formatFile p c]
                rw [joinAll_singleton] at heq
                refine ⟨cur :: gs, cur2, ?_, ?_⟩
                · rw [fetchGo_file_push est exts b p u c rest chunks _ hcond hbig hguard, heq]
                  simp
                · rw [blocksOf_file_kept exts p u c rest hcond hbig]
                  simp only [List.flatten_cons, List.append_assoc, hflat]
                  simp
              · obtain ⟨gs, cur2, heq, hflat⟩ := IHgo chunks (cur ++ [formatFile p c])
                rw [joinAll_append, joinAll_singleton] at heq
                refine ⟨gs, cur2, ?_, ?_⟩
                · rw [fetchGo_file_app est exts b p u c rest chunks _ hcond hbig hguard]
                  exact heq
                · rw [hflat, blocksOf_file_kept exts p u c rest hcond hbig]
                  simp
          · obtain ⟨gs, cur2, heq, hflat⟩ := IHgo chunks cur
            refine ⟨gs, cur2, ?_, ?_⟩
            · rw [fetchGo_file_not est exts b p u c rest chunks _ hcond]
              exact heq
            · rw [hflat, blocksOf_file_not exts p u c rest hcond]
        | dir d es =>
          have hrest : sizeOf rest ≤ n := by
            simp only [List.cons.sizeOf_spec] at hsize
            omega
          have hes : sizeOf es ≤ n := by
            simp only [List.cons.sizeOf_spec, Entry.dir.sizeOf_spec] at hsize
            omega
          obtain ⟨_, IHall⟩ := ih es hes
          obtain ⟨IHgo, _⟩ := ih rest hrest
          intro chunks cur
          obtain ⟨dgs, hdgs, hdflat⟩ := IHall
          obtain ⟨gs1, cur1, hpeq, hpflat⟩ := packGo_pack est b dgs chunks cur
          obtain ⟨gs2, cur2, heq2, hflat2⟩ := IHgo (chunks ++ gs1.map joinAll) cur1
          refine ⟨gs1 ++ gs2, cur2, ?_, ?_⟩
          · rw [fetchGo_dir, hdgs, hpeq]
            simp only
            rw [heq2]
            simp
          · rw [blocksOf_dir]
            calc (gs1 ++ gs2).flatten ++ cur2
                = gs1.flatten ++ (gs2.flatten ++ cur2) := by
                  simp [List.flatten_append, List.append_assoc]
              _ = gs1.flatten ++ (cur1 ++ Variant.blocksOf exts rest) := by rw [hflat2]
              _ = (gs1.flatten ++ cur1) ++ Variant.blocksOf exts rest := by
                  simp [List.append_assoc]
              _ = (cur ++ dgs.flatten) ++ Variant.blocksOf exts rest := by rw [hpflat]
              _ = cur ++ (Variant.blocksOf exts es ++ Variant.blocksOf exts rest) := by
                  rw [hdflat, List.append_assoc]
    refine ⟨hgo, ?_⟩
    obtain ⟨gs, cur2, heq, hflat⟩ := hgo [] []
    have hjnil : joinAll [] = "" := rfl
    rw [hjnil] at heq
    simp only [List.nil_append] at heq hflat
    have hmem : ∀ x ∈ cur2, x ≠ "" := by
      intro x hx
      have : x ∈ gs.flatten ++ cur2 := List.mem_append_right _ hx
      rw [hflat] at this
      exact blocksOf_ne_empty exts entries x this
    by_cases hc2 : joinAll cur2 = ""
    · have hcur2 : cur2 = [] := eq_nil_of_joinAll_eq_empty hmem hc2
      refine ⟨gs, ?_, ?_⟩
      · rw [fetchAll_eq, heq]
        simp [hc2]
      · rw [← hflat, hcur2]
        simp
    · refine ⟨gs ++ [cur2], ?_, ?_⟩
      · rw [fetchAll_eq, heq]
        simp [hc2]
      · rw [← hflat]
        simp

/-- Helper: the concatenation of all chunks of the fetch-and-chunk walk is
the concatenation of the formatted blocks of the filtered corpus. -/
theorem fetch_joinAll_blocks (est : String → Nat) (exts : List String) (b : Nat)
    (entries : List Entry) :
    joinAll (Variant.fetchAllRepoContents est exts b entries)
      = joinAll (Variant.blocksOf exts entries) := by
  obtain ⟨dgs, heq, hflat⟩ := (fetchGo_pack est exts b (sizeOf entries) entries le_rfl).2
  rw [heq, joinAll_map_joinAll, hflat]

/-- C1 (amended): round trip for the fetch-and-chunk variant — concatenating
all chunks returned by `fetchAllRepoContents`, in order, yields exactly the
concatenation of the retained FileRecords in their original walk order, each
prefixed by its path header and nothing else: no byte is lost or duplicated,
and stripping exactly the inserted path headers recovers the concatenated
file bodies.  (The line-based `chunkSourceCode` does not satisfy this
exactly; see `chunkSourceCode_round_trip_counterexample`.) -/
theorem fetch_chunks_round_trip (est : String → Nat) (exts : List String) (b : Nat)
    (entries : List Entry) :
    joinAll (Variant.fetchAllRepoContents est exts b entries)
      = joinAll ((Variant.collectFiles exts entries).map fun r => formatFile r.1 r.2) :=
  fetch_joinAll_blocks est exts b entries

/-- C2 (amended): the fetch-and-chunk variant never splits a block: the
formatted blocks of the filtered corpus partition, in order, into consecutive
groups whose concatenations are exactly the produced chunks — so each
FileRecord's formatted text lies entirely within a single chunk, and a block
exceeding the budget alone is still emitted inside one chunk, never dropped
and never divided.  (The line-based `chunkSourceCode` splits at line
boundaries and can split mid-file; see
`chunkSourceCode_splits_mid_file_counterexample`.) -/
theorem fetch_chunks_never_split_blocks (est : String → Nat) (exts : List String)
    (b : Nat) (entries : List Entry) :
    ∃ groups : List (List String),
      groups.flatten = (Variant.collectFiles exts entries).map (fun r => formatFile r.1 r.2)
      ∧ Variant.fetchAllRepoContents est exts b entries = groups.map joinAll := by
  obtain ⟨dgs, heq, hflat⟩ := (fetchGo_pack est exts b (sizeOf entries) entries le_rfl).2
  exact ⟨dgs, hflat, heq⟩

/-- Helper: a matching, in-ceiling file occurring at any depth is one of the
retained FileRecords. -/
theorem fileOccurs_mem_collectFiles (exts : List String) (p : String)
    (u : Option String) (c : String) (entries : List Entry)
    (hocc : FileOccurs p u c entries)
    (hcond : (u.isSome && matchesExt exts p) = true)
    (hsize : c.length ≤ 500000) :
    (p, c) ∈ Variant.collectFiles exts entries := by
  induction hocc with
  | head rest =>
    simp only [Variant.collectFiles]
    rw [if_pos hcond, if_neg (by omega)]
    exact List.mem_cons_self _ _
  | tail e rest h ih =>
    cases e with
    | file q v d =>
      simp only [Variant.collectFiles]
      by_cases hc : (v.isSome && matchesExt exts q) = true
      · rw [if_pos hc]
        by_cases hb : 500000 < d.length
        · rw [if_pos hb]; exact ih
        · rw [if_neg hb]; exact List.mem_cons_of_mem _ ih
      · rw [if_neg hc]; exact ih
    | dir q es =>
      simp only [Variant.collectFiles]
      exact List.mem_append_right _ ih
  | inDir d es rest h ih =>
    simp only [Variant.collectFiles]
    exact List.mem_append_left _ ih

/-- C6 (amended): the recursive walker (`fetchAllRepoContents` of the
fetch-and-chunk variant) descends into every directory entry, so a matching,
in-ceiling file at any nesting depth is retained as a FileRecord and its
formatted text appears inside the concatenated chunk output.  (The worker
`fetchDirContents` of `server.js` does not recurse; see
`fetchDirContents_no_recursion_counterexample`.) -/
theorem fetch_walks_recursively (est : String → Nat) (exts : List String) (b : Nat)
    (p : String) (u : Option String) (c : String) (entries : List Entry)
    (hocc : FileOccurs p u c entries)
    (hcond : (u.isSome && matchesExt exts p) = true)
    (hsize : c.length ≤ 500000) :
    (p, c) ∈ Variant.collectFiles exts entries
    ∧ ∃ pre post, joinAll (Variant.fetchAllRepoContents est exts b entries)
        = pre ++ formatFile p c ++ post := by
  have hm := fileOccurs_mem_collectFiles exts p u c entries hocc hcond hsize
  refine ⟨hm, ?_⟩
  have hmb : formatFile p c ∈ Variant.blocksOf exts entries := by
    rw [Variant.blocksOf]
    exact List.mem_map_of_mem _ hm
  obtain ⟨s, t, hst⟩ := List.append_of_mem hmb
  refine ⟨joinAll s, joinAll t, ?_⟩
  rw [fetch_joinAll_blocks, hst, joinAll_append]
  show joinAll s ++ (formatFile p c ++ joinAll t) = joinAll s ++ formatFile p c ++ joinAll t
  rw [String.append_assoc]

/-- Witness for C6 (amended): a `.js` file nested one directory below the
starting listing is retained and its formatted text appears in the output. -/
theorem fetch_walks_recursively_witness :
    ("sub/a.js", "x") ∈ Variant.collectFiles [".js"]
        [.dir "sub" [.file "sub/a.js" (some "u") "x"]]
    ∧ ∃ pre post, joinAll (Variant.fetchAllRepoContents countTokens [".js"] 25000
        [.dir "sub" [.file "sub/a.js" (some "u") "x"]])
        = pre ++ formatFile "sub/a.js" "x" ++ post :=
  fetch_walks_recursively countTokens [".js"] 25000 "sub/a.js" (some "u") "x"
    [.dir "sub" [.file "sub/a.js" (some "u") "x"]]
    (FileOccurs.inDir "sub" _ [] (FileOccurs.head []))
    (by decide) (by decide)

/-- Counterexample to C6 as stated: the worker walker `fetchDirContents` of
`server.js` ignores directory entries — invoked on a listing holding one
subdirectory that contains a matching `.js` file, it posts the empty string,
although the file occurs below the starting directory, matches the filter,
exposes a download location and is within the size ceiling. -/
theorem fetchDirContents_no_recursion_counterexample :
    Server.fetchDirContents [".js", ".py", ".ts", ".md"]
        [.dir "sub" [.file "sub/a.js" (some "u") "x"]] = ""
    ∧ FileOccurs "sub/a.js" (some "u") "x"
        [.dir "sub" [.file "sub/a.js" (some "u") "x"]]
    ∧ matchesExt [".js", ".py", ".ts", ".md"] "sub/a.js" = true
    ∧ (some "u").isSome = true
    ∧ ("x" : String).length ≤ 500000 :=
  ⟨by decide, FileOccurs.inDir "sub" _ [] (FileOccurs.head []), by decide, rfl, by decide⟩

/-- Helper: packing preserves the budget invariant — every emitted chunk and
the final accumulator either estimate within the budget or are one of the
packed items verbatim (which are themselves within `S`). -/
theorem packGo_bound (est : String → Nat) (b : Nat) (S : List String) :
    ∀ (ds : List String) (chunks : List String) (cc : String),
      (∀ x ∈ ds, est x ≤ b ∨ x ∈ S) →
      (∀ x ∈ chunks, est x ≤ b ∨ x ∈ S) →
      (est cc ≤ b ∨ cc ∈ S) →
      (∀ x ∈ (Variant.packGo est b ds chunks cc).1, est x ≤ b ∨ x ∈ S)
      ∧ (est (Variant.packGo est b ds chunks cc).2 ≤ b
          ∨ (Variant.packGo est b ds chunks cc).2 ∈ S) := by
  intro ds
  induction ds with
  | nil =>
    intro chunks cc _ hchunks hcc
    rw [Variant.packGo]
    exact ⟨hchunks, hcc⟩
  | cons dch rest ih =>
    intro chunks cc hds hchunks hcc
    rw [Variant.packGo]
    by_cases hguard : b < est (cc ++ dch)
    · rw [if_pos hguard]
      refine ih (chunks ++ [cc]) dch (fun x hx => hds x (List.mem_cons_of_mem _ hx)) ?_
        (hds dch (List.mem_cons_self _ _))
      intro y hy
      rcases List.mem_append.1 hy with h1 | h2
      · exact hchunks y h1
      · rw [List.mem_singleton] at h2; subst h2; exact hcc
    · rw [if_neg hguard]
      exact ih chunks (cc ++ dch) (fun x hx => hds x (List.mem_cons_of_mem _ hx))
        hchunks (Or.inl (by omega))

/-- Helper budget invariant for the fetch-and-chunk walk: provided the
estimator gives the empty string estimate 0, every chunk the walk emits
either estimates within the budget or is a single formatted block verbatim
(all blocks of the walked listing lying in `S`). -/
theorem fetchGo_bound (est : String → Nat) (exts : List String) (b : Nat)
    (hz : est "" = 0) (S : List String) :
    ∀ (n : Nat) (entries : List Entry), sizeOf entries ≤ n →
      (∀ (chunks : List String) (cc : String),
        (∀ x ∈ Variant.blocksOf exts entries, x ∈ S) →
        (∀ x ∈ chunks, est x ≤ b ∨ x ∈ S) →
        (est cc ≤ b ∨ cc ∈ S) →
        (∀ x ∈ (Variant.fetchGo est exts b entries chunks cc).1, est x ≤ b ∨ x ∈ S)
        ∧ (est (Variant.fetchGo est exts b entries chunks cc).2 ≤ b
            ∨ (Variant.fetchGo est exts b entries chunks cc).2 ∈ S))
      ∧ ((∀ x ∈ Variant.blocksOf exts entries, x ∈ S) →
          ∀ x ∈ Variant.fetchAllRepoContents est exts b entries,
            est x ≤ b ∨ x ∈ S) := by
  intro n
  induction n with
  | zero =>
    intro entries h
    exfalso
    have hpos : 0 < sizeOf entries := by cases entries <;> simp_arith
    omega
  | succ n ih =>
    intro entries hsize
    have hgo : ∀ (chunks : List String) (cc : String),
        (∀ x ∈ Variant.blocksOf exts entries, x ∈ S) →
        (∀ x ∈ chunks, est x ≤ b ∨ x ∈ S) →
        (est cc ≤ b ∨ cc ∈ S) →
        (∀ x ∈ (Variant.fetchGo est exts b entries chunks cc).1, est x ≤ b ∨ x ∈ S)
        ∧ (est (Variant.fetchGo est exts b entries chunks cc).2 ≤ b
            ∨ (Variant.fetchGo est exts b entries chunks cc).2 ∈ S) := by
      cases entries with
      | nil =>
        intro chunks cc _ hchunks hcc
        rw [fetchGo_nil]
        exact ⟨hchunks, hcc⟩
      | cons e rest =>
        cases e with
        | file p u c =>
          have hrest : sizeOf rest ≤ n := by
            simp only [List.cons.sizeOf_spec] at hsize
            omega
          obtain ⟨IHgo, _⟩ := ih rest hrest
          intro chunks cc hS hchunks hcc
          by_cases hcond : (u.isSome && matchesExt exts p) = true
          · by_cases hbig : 500000 < c.length
            · rw [fetchGo_file_big est exts b p u c rest chunks cc hbig]
              refine IHgo chunks cc ?_ hchunks hcc
              intro x hx
              exact hS x (by rw [blocksOf_file_big exts p u c rest hbig]; exact hx)
            · have hSrest : ∀ x ∈ Variant.blocksOf exts rest, x ∈ S := by
                intro x hx
                refine hS x ?_
                rw [blocksOf_file_kept exts p u c rest hcond hbig]
                exact List.mem_cons_of_mem _ hx
              have hfmt : formatFile p c ∈ S := by
                refine hS _ ?_
                rw [blocksOf_file_kept exts p u c rest hcond hbig]
                exact List.mem_cons_self _ _
              by_cases hguard : b < est (cc ++ formatFile p c)
              · rw [fetchGo_file_push est exts b p u c rest chunks cc hcond hbig hguard]
                refine IHgo (chunks ++ [cc]) (formatFile p c) hSrest ?_ (Or.inr hfmt)
                intro y hy
                rcases List.mem_append.1 hy with h1 | h2
                · exact hchunks y h1
                · rw [List.mem_singleton] at h2; subst h2; exact hcc
              · rw [fetchGo_file_app est exts b p u c rest chunks cc hcond hbig hguard]
                exact IHgo chunks (cc ++ formatFile p c) hSrest hchunks (Or.inl (by omega))
          · rw [fetchGo_file_not est exts b p u c rest chunks cc hcond]
            refine IHgo chunks cc ?_ hchunks hcc
            intro x hx
            exact hS x (by rw [blocksOf_file_not exts p u c rest hcond]; exact hx)
        | dir d es =>
          have hrest : sizeOf rest ≤ n := by
            simp only [List.cons.sizeOf_spec] at hsize
            omega
          have hes : sizeOf es ≤ n := by
            simp only [List.cons.sizeOf_spec, Entry.dir.sizeOf_spec] at hsize
            omega
          obtain ⟨_, IHall⟩ := ih es hes
          obtain ⟨IHgo, _⟩ := ih rest hrest
          intro chunks cc hS hchunks hcc
          have hSes : ∀ x ∈ Variant.blocksOf exts es, x ∈ S := by
            intro x hx
            exact hS x (by rw [blocksOf_dir]; exact List.mem_append_left _ hx)
          have hSrest : ∀ x ∈ Variant.blocksOf exts rest, x ∈ S := by
            intro x hx
            exact hS x (by rw [blocksOf_dir]; exact List.mem_append_right _ hx)
          have hds := IHall hSes
          rw [fetchGo_dir]
          obtain ⟨hp1, hp2⟩ := packGo_bound est b S
            (Variant.fetchAllRepoContents est exts b es) chunks cc hds hchunks hcc
          exact IHgo _ _ hSrest hp1 hp2
    refine ⟨hgo, ?_⟩
    intro hS x hx
    rw [fetchAll_eq] at hx
    obtain ⟨h1, h2⟩ := hgo [] "" hS (by simp) (Or.inl (by omega))
    by_cases hc : (Variant.fetchGo est exts b entries [] "").2 = ""
    · rw [if_pos hc] at hx
      exact h1 x hx
    · rw [if_neg hc] at hx
      rcases List.mem_append.1 hx with hm1 | hm2
      · exact h1 x hm1
      · rw [List.mem_singleton] at hm2; subst hm2; exact h2

/-- C4 (amended): budget bound of the two chunkers.  For the line-based
`chunkSourceCode` of `server.js`, every chunk either estimates within
`budget + 1` (the guard sums the separate estimates of accumulator and line
and ignores the inserted newline separator, so it can overshoot by exactly
one token — see `chunkSourceCode_budget_counterexample` for `budget` itself
failing) or is a single input line verbatim (the only way a chunk can exceed
`budget + 1`).  For the fetch-and-chunk variant, whose guard estimates the
actual concatenation, the original bound holds exactly: every chunk either
estimates within the budget or is a single formatted block verbatim. -/
theorem chunk_budget_amended :
    (∀ (text : String) (b : Nat) (x : String),
        x ∈ Server.chunkSourceCode text b →
        countTokens x ≤ b + 1 ∨ x ∈ splitNl text)
    ∧ (∀ (est : String → Nat) (exts : List String) (b : Nat) (entries : List Entry)
        (x : String), est "" = 0 →
        x ∈ Variant.fetchAllRepoContents est exts b entries →
        est x ≤ b ∨ x ∈ Variant.blocksOf exts entries) := by
  constructor
  · intro text b x hx
    refine chunkLoop_member_bound b (splitNl text) (splitNl text) "" []
      (fun l hl => hl) (by simp) ?_ x hx
    have h0 : countTokens "" = 0 := rfl
    exact Or.inl (by omega)
  · intro est exts b entries x hz hx
    exact (fetchGo_bound est exts b hz (Variant.blocksOf exts entries)
      (sizeOf entries) entries le_rfl).2 (fun y hy => hy) x hx

/-- Witness for C4 (amended): both conjuncts discharged at concrete inputs —
a two-line text under budget 10 for the line chunker, and a single small
`.js` file under budget 25000 with the fallback estimator for the variant. -/
theorem chunk_budget_amended_witness :
    (countTokens "ab" ≤ 10 + 1 ∨ ("ab" : String) ∈ splitNl "ab")
    ∧ (countTokens (formatFile "a.js" "x") ≤ 25000
        ∨ formatFile "a.js" "x" ∈ Variant.blocksOf [".js"]
            [.file "a.js" (some "u") "x"]) := by
  constructor
  · exact chunk_budget_amended.1 "ab" 10 "ab" (by decide)
  · refine chunk_budget_amended.2 countTokens [".js"] 25000
      [.file "a.js" (some "u") "x"] (formatFile "a.js" "x") rfl ?_
    have h : Variant.fetchAllRepoContents countTokens [".js"] 25000
        [.file "a.js" (some "u") "x"] = [formatFile "a.js" "x"] := by
      simp only [Variant.fetchAllRepoContents, Variant.fetchGo]
      decide
    rw [h]
    exact List.mem_singleton_self _

/-- C8: a file whose content exceeds 500000 characters is skipped: the
fetch-and-chunk walk produces exactly the chunks it would produce without
that file (so the file contributes no chunk content and processing of the
remaining entries continues), no FileRecord is retained for it, its path is
recorded in the warning log when it passed the type/url/extension check, the
`server.js` worker walker likewise skips it, and a listing holding only that
file yields zero chunks.  All modelled functions are total, so no error is
raised. -/
theorem oversized_file_skipped (est : String → Nat) (exts : List String) (b : Nat)
    (p : String) (u : Option String) (c : String) (rest : List Entry)
    (hbig : 500000 < c.length) :
    Variant.fetchAllRepoContents est exts b (.file p u c :: rest)
      = Variant.fetchAllRepoContents est exts b rest
    ∧ Variant.collectFiles exts (.file p u c :: rest) = Variant.collectFiles exts rest
    ∧ ((u.isSome && matchesExt exts p) = true →
        p ∈ Variant.fetchWarnings exts (.file p u c :: rest))
    ∧ Server.fetchDirItems exts (.file p u c :: rest) = Server.fetchDirItems exts rest
    ∧ Variant.fetchAllRepoContents est exts b [.file p u c] = [] := by
  refine ⟨?_, ?_, ?_, ?_, ?_⟩
  · rw [fetchAll_eq, fetchAll_eq, fetchGo_file_big est exts b p u c rest _ _ hbig]
  · simp only [Variant.collectFiles]
    by_cases hcond : (u.isSome && matchesExt exts p) = true
    · rw [if_pos hcond, if_pos hbig]
    · rw [if_neg hcond]
  · intro hcond
    simp only [Variant.fetchWarnings]
    rw [if_pos hcond, if_pos hbig]
    exact List.mem_cons_self _ _
  · simp only [Server.fetchDirItems]
    by_cases hcond : (u.isSome && matchesExt exts p) = true
    · rw [if_pos hcond, if_pos hbig]
    · rw [if_neg hcond]
  · rw [fetchAll_eq, fetchGo_file_big est exts b p u c [] _ _ hbig, fetchGo_nil]
    simp

/-- Witness for C8: a single 600000-character file yields zero chunks. -/
theorem oversized_file_skipped_witness :
    Variant.fetchAllRepoContents countTokens [".js"] 25000
      [.file "big.js" (some "u") (String.mk (List.replicate 600000 'a'))] = [] := by
  have hlen : (String.mk (List.replicate 600000 'a')).length = 600000 := by
    rw [String.length_mk, List.length_replicate]
  exact (oversized_file_skipped countTokens [".js"] 25000 "big.js" (some "u")
    (String.mk (List.replicate 600000 'a')) [] (by omega)).2.2.2.2

/-- Helper: a `filterMap` over a list containing `k` exactly once, mapping
`k` to `some m` and every other element to `none`, yields `[m]`. -/
theorem filterMap_eq_singleton {α β : Type} [DecidableEq α] {g : α → Option β}
    {l : List α} {k : α} {m : β}
    (hnd : l.Nodup) (hmem : k ∈ l) (hk : g k = some m)
    (hothers : ∀ i ∈ l, i ≠ k → g i = none) : l.filterMap g = [m] := by
  induction l with
  | nil => cases hmem
  | cons a t ih =>
    by_cases hak : a = k
    · subst hak
      have hnotmem : a ∉ t := (List.nodup_cons.1 hnd).1
      have htnil : t.filterMap g = [] := by
        rw [List.filterMap_eq_nil_iff]
        intro i hi
        refine hothers i (List.mem_cons_of_mem _ hi) ?_
        intro h
        exact hnotmem (h ▸ hi)
      rw [List.filterMap_cons, hk, htnil]
    · have hga : g a = none := hothers a (List.mem_cons_self _ _) hak
      rw [List.filterMap_cons, hga]
      refine ih (List.nodup_cons.1 hnd).2 ?_ ?_
      · rcases List.mem_cons.1 hmem with h | h
        · exact absurd h.symm hak
        · exact h
      · exact fun i hi => hothers i (List.mem_cons_of_mem _ hi)

/-- C7: partial-failure tolerance of the coordinator.  If the root listing
succeeds and, of the `N` subdirectory workers, exactly the one at index `k`
fails (posting an error payload) while every other worker posts its content,
then for any completion order of the workers the coordinator still completes
with `.ok`: the sink holds the root-level direct fetch followed by the
contributions of the other `N − 1` workers in completion order, the failing
worker contributing the empty string, and the error log records exactly that
one failure.  Conversely a failing root listing aborts the whole fetch. -/
theorem fetch_partial_failure (exts : List String) (items : List Entry)
    (outcome : Nat → Server.WorkerMsg) (order : List Nat) (k : Nat) (m : String)
    (contentOf : Nat → String)
    (hperm : order.Perm (List.range (Server.rootDirs items).length))
    (hk : k < (Server.rootDirs items).length)
    (hfail : outcome k = .errorMsg m)
    (hok : ∀ i, i < (Server.rootDirs items).length → i ≠ k →
        outcome i = .content (contentOf i)) :
    Server.fetchAllRepoContents exts (.ok items) outcome order
      = .ok ⟨Server.rootFilesText exts items
              ++ joinAll (order.map fun i => if i = k then "" else contentOf i),
             [m]⟩
    ∧ ∀ e, Server.fetchAllRepoContents exts (.error e) outcome order = .error e := by
  constructor
  · have hmemlt : ∀ i ∈ order, i < (Server.rootDirs items).length := by
      intro i hi
      have := hperm.mem_iff.1 hi
      exact List.mem_range.1 this
    have hsink : order.map (fun i => Server.workerContribution (outcome i))
        = order.map fun i => if i = k then "" else contentOf i := by
      refine List.map_congr_left ?_
      intro i hi
      by_cases hik : i = k
      · subst hik
        rw [hfail, if_pos rfl]
        rfl
      · rw [hok i (hmemlt i hi) hik, if_neg hik]
        rfl
    have herrs : (order.filterMap fun i => Server.workerError (outcome i)) = [m] := by
      have hnd : order.Nodup := (hperm.nodup_iff).2 (List.nodup_range _)
      have hmem : k ∈ order := hperm.mem_iff.2 (List.mem_range.2 hk)
      have hk0 : Server.workerError (outcome k) = some m := by rw [hfail]; rfl
      have hoth : ∀ i ∈ order, i ≠ k → Server.workerError (outcome i) = none := by
        intro i hi hik
        rw [hok i (hmemlt i hi) hik]
        rfl
      exact filterMap_eq_singleton hnd hmem hk0 hoth
    simp only [Server.fetchAllRepoContents]
    rw [hsink, herrs]
  · intro e
    rfl

/-- Witness for C7: a root listing with one `.py` file and two
subdirectories, worker 1 failing with `boom` and worker 0 posting `W0`, in
completion order worker 1 then worker 0. -/
theorem fetch_partial_failure_witness :
    Server.fetchAllRepoContents [".js", ".py"]
        (.ok [.file "a.py" (some "u") "print", .dir "lib" [], .dir "src" []])
        (fun i => if i = 1 then .errorMsg "boom" else .content "W0") [1, 0]
      = .ok ⟨Server.rootFilesText [".js", ".py"]
              [.file "a.py" (some "u") "print", .dir "lib" [], .dir "src" []]
              ++ joinAll ([1, 0].map fun i => if i = 1 then "" else "W0"),
             ["boom"]⟩ := by
  have h := (fetch_partial_failure [".js", ".py"]
    [.file "a.py" (some "u") "print", .dir "lib" [], .dir "src" []]
    (fun i => if i = 1 then .errorMsg "boom" else .content "W0") [1, 0] 1 "boom"
    (fun _ => "W0") (by decide) (by decide) (by simp)
    (fun i hi hik => by
      have h2 : i < 2 := by simpa [Server.rootDirs] using hi
      have : i = 0 := by omega
      subst this
      rfl)).1
  exact h

/-- Witness for C3 (amended): the last-chunk property at a concrete text and
budget. -/
theorem chunkSourceCode_last_chunk_ne_empty_witness :
    (Server.chunkSourceCode "ab" 10).getLast? ≠ some "" :=
  chunkSourceCode_last_chunk_ne_empty "ab" 10
